import Mathlib

/-!
# Verification of the antares arbitrage scanner

Shallow embedding of the three source files of the repository:

* `src/graph_cycles.rs` — a bounded elementary-cycle enumerator (a
  Johnson-style circuit search run per strongly connected component, with a
  3–5 edge-length window applied at emission time);
* `src/main.rs` — graph build/prune from the pair catalog, streaming edge
  updates, per-cycle gain computation and ranking;
* `src/ui.rs` — dashboard state (only the `AppState` record is relevant
  here; the best-ever update logic it stores is not in the sources and is
  modelled from the specification where needed).

Machine `f64` arithmetic is modelled over `ℚ`; the one place the code uses
`f64::MAX` as a stand-in for "+∞" keeps that constant explicitly
(`f64MAX`).  Mutable state is threaded explicitly; recursive procedures
take a fuel argument and report fuel exhaustion through an `ok` flag, so a
run with `ok = true` is exactly the run of the source recursion.
-/

namespace Antares

/-! ## Embedding of `CycleFinder` (src/graph_cycles.rs)

The finder works inside one strongly connected component `scc` (a list of
node identifiers).  `blocked` and `bsets` are indexed by positions in
`scc`; the path `stack` holds node identifiers, as in the source.  The
graph enters only through its neighbor lists (`petgraph`'s `neighbors`,
which yields a node's out-neighbors most-recently-added first). -/

structure CFState where
  blocked : List Bool
  bsets : List (List Nat)
  stack : List Nat
  deriving Repr, DecidableEq

/-- `CycleFinder::adjacent_vertices`: a vertex's out-neighbors translated to
positions in the component (`scc.iter().position(...)`), dropping neighbors
outside the component. -/
def adjacentVertices (nbrs : Nat → List Nat) (scc : List Nat) (v : Nat) : List Nat :=
  (nbrs (scc.getD v 0)).filterMap (fun n => scc.findIdx? (fun x => x == n))

/-- `CycleFinder::unblock`.  The set `b[v]` is read up front (the source
clones it before the loop), each still-blocked member is unblocked
recursively, and `b[v]` is cleared at the end.  The Boolean reports that
the fuel sufficed. -/
def unblockF : Nat → Nat → CFState → CFState × Bool
  | 0, _, st => (st, false)
  | fuel+1, v, st =>
    let st1 : CFState := { st with blocked := st.blocked.set v false }
    let tmp := st1.bsets.getD v []
    let r := tmp.foldl (fun (acc : CFState × Bool) w =>
      if acc.1.blocked.getD w false then
        let r2 := unblockF fuel w acc.1
        (r2.1, acc.2 && r2.2)
      else acc) (st1, true)
    ({ r.1 with bsets := r.1.bsets.set v [] }, r.2)

/-- Result of one `circuit` call: final state, the `f` flag, the cycles
handed to the visitor (each is the path stack at emission time, a list of
node identifiers), fuel sufficiency, and the deepest stack observed (an
observation used to settle the depth-pruning claim; it does not influence
the computation). -/
structure CircuitRes where
  st : CFState
  found : Bool
  emits : List (List Nat)
  ok : Bool
  maxStack : Nat
  deriving Repr

/-- `CycleFinder::circuit`.  `v` is pushed and blocked; each adjacent `w`
is either the start `s` (emit when the stack holds 3 to 5 vertices), an
unblocked vertex (recurse), or skipped.  Afterwards `v` is unblocked when a
cycle was found, otherwise `v` is registered in `b[w]` for every neighbor
`w`; finally `v` is popped. -/
def circuitF (adj : Nat → List Nat) (scc : List Nat) (s : Nat) :
    Nat → Nat → CFState → CircuitRes
  | 0, _, st => ⟨st, false, [], false, st.stack.length⟩
  | fuel+1, v, st =>
    let st1 : CFState := { st with
      stack := st.stack ++ [scc.getD v 0],
      blocked := st.blocked.set v true }
    let init : CircuitRes := ⟨st1, false, [], true, st1.stack.length⟩
    let lp := (adj v).foldl (fun (acc : CircuitRes) w =>
      if w = s then
        if 3 ≤ acc.st.stack.length ∧ acc.st.stack.length ≤ 5 then
          { acc with found := true, emits := acc.emits ++ [acc.st.stack] }
        else acc
      else if acc.st.blocked.getD w false = false then
        let r := circuitF adj scc s fuel w acc.st
        { st := r.st, found := acc.found || r.found,
          emits := acc.emits ++ r.emits, ok := acc.ok && r.ok,
          maxStack := max acc.maxStack r.maxStack }
      else acc) init
    if lp.found then
      let u := unblockF (lp.st.blocked.length + 1) v lp.st
      ⟨{ u.1 with stack := u.1.stack.dropLast }, true, lp.emits, lp.ok && u.2, lp.maxStack⟩
    else
      let bs := (adj v).foldl (fun bs w =>
        let cur := bs.getD w []
        if cur.contains v then bs else bs.set w (cur ++ [v])) lp.st.bsets
      ⟨{ lp.st with bsets := bs, stack := lp.st.stack.dropLast }, false, lp.emits,
        lp.ok, lp.maxStack⟩

/-- Aggregate result of `CycleFinder::visit` (and of `visit_cycles` across
components). -/
structure VisitRes where
  emits : List (List Nat)
  ok : Bool
  maxStack : Nat
  deriving Repr

/-- `CycleFinder::visit`: for each start position `s` in increasing order,
reset `blocked` from `s` on and the `b` sets strictly after `s`, run
`circuit(s)`, then permanently block `s`. -/
def visitF (adj : Nat → List Nat) (scc : List Nat) (fuel : Nat) : VisitRes :=
  let n := scc.length
  let start : CFState := ⟨List.replicate n false, List.replicate n [], []⟩
  let r := (List.range n).foldl (fun (acc : CFState × VisitRes) s =>
    let st0 : CFState := { acc.1 with
      blocked := acc.1.blocked.mapIdx (fun i b => if s ≤ i then false else b),
      bsets := acc.1.bsets.mapIdx (fun i l => if s + 1 ≤ i then [] else l) }
    let r := circuitF adj scc s fuel s st0
    let st1 : CFState := { r.st with blocked := r.st.blocked.set s true }
    (st1, ⟨acc.2.emits ++ r.emits, acc.2.ok && r.ok, max acc.2.maxStack r.maxStack⟩))
    (start, ⟨[], true, 0⟩)
  r.2

/-- `Cycles::visit_cycles` for the all-cycles visitor: Tarjan's algorithm
partitions the graph into strongly connected components and a finder is run
on each.  The inner vertex order of each component is however `tarjan_scc`
delivered it, so the decomposition is a parameter here; theorems about
concrete graphs quantify over every possible inner order. -/
def visitCyclesWith (nbrs : Nat → List Nat) (comps : List (List Nat)) (fuel : Nat) : VisitRes :=
  comps.foldl (fun acc scc =>
    let r := visitF (adjacentVertices nbrs scc) scc fuel
    ⟨acc.emits ++ r.emits, acc.ok && r.ok, max acc.maxStack r.maxStack⟩) ⟨[], true, 0⟩

/-- `Cycles::cycles`: collect every visited cycle and close it by repeating
its first node at the end (`cycle_vec.push(cycle_vec[0])`). -/
def cyclesWith (nbrs : Nat → List Nat) (comps : List (List Nat)) (fuel : Nat) :
    List (List Nat) :=
  (visitCyclesWith nbrs comps fuel).emits.map (fun c => c ++ [c.headD 0])

/-! ## Reference notions used to judge the enumerator

These follow the specification's wording, independently of the algorithm:
an elementary cycle is a closed directed walk that revisits no vertex
except the start, identified up to rotation by anchoring it at its least
vertex. -/

/-- `b` is an out-neighbor of `a`. -/
def isEdgeB (nbrs : Nat → List Nat) (a b : Nat) : Bool := (nbrs a).contains b

/-- Consecutive pairs of `c`, plus the closing pair, all are edges. -/
def chainClosedB (nbrs : Nat → List Nat) (c : List Nat) : Bool :=
  match c with
  | [] => true
  | h :: _ =>
    ((c.zip (c.tail ++ [h])).all (fun p => isEdgeB nbrs p.1 p.2))

/-- `c` is the canonical representative (least vertex first) of an
elementary cycle with 3 to 5 edges. -/
def elemCycleCanonB (nbrs : Nat → List Nat) (c : List Nat) : Bool :=
  decide (3 ≤ c.length) && decide (c.length ≤ 5) && c.Nodup &&
    chainClosedB nbrs c &&
    (match c with
     | [] => false
     | h :: t => t.all (fun x => h < x))

/-- All lists of length `k` over `0..n-1`. -/
def allTuples (n : Nat) : Nat → List (List Nat)
  | 0 => [[]]
  | k+1 => ((List.range n).map (fun v => (allTuples n k).map (fun t => v :: t))).flatten

/-- The canonical elementary cycles of length 3–5 of an `n`-vertex graph. -/
def elemCycles35 (nbrs : Nat → List Nat) (n : Nat) : List (List Nat) :=
  ((allTuples n 3 ++ allTuples n 4 ++ allTuples n 5).filter (elemCycleCanonB nbrs))

/-- Bounded reachability: vertices reachable from `v` in at most `n` steps. -/
def reachIter (nbrs : Nat → List Nat) : Nat → List Nat → List Nat
  | 0, acc => acc
  | k+1, acc =>
    let acc' := (acc ++ acc.flatMap nbrs).dedup
    reachIter nbrs k acc'

/-- Every vertex reaches every vertex: the whole graph is one strongly
connected component, so `tarjan_scc` returns it as a single component in
some inner order. -/
def stronglyConnectedB (nbrs : Nat → List Nat) (n : Nat) : Bool :=
  (List.range n).all (fun v =>
    (List.range n).all (fun w => (reachIter nbrs n [v]).contains w))

/-! ## The witness graph for the completeness claim

Six vertices, thirteen edges.  Each vertex's neighbor list is ordered the
way `petgraph` would iterate it (most recently inserted first), so the
list below is realized by inserting each vertex's edges in reverse of the
order shown.  The graph is strongly connected and has exactly five
elementary cycles of length 3–5, yet for every one of the 720 possible
inner orders of the component the finder emits at most four cycles. -/

def g6nbrs : Nat → List Nat
  | 0 => [1, 3]
  | 1 => [4, 0]
  | 2 => [3, 4, 1]
  | 3 => [5, 0]
  | 4 => [1, 2]
  | 5 => [2, 0]
  | _ => []

/-- The 6-cycle `0 → 1 → 2 → 3 → 4 → 5 → 0`: the smallest graph on which
the path stack must exceed five vertices. -/
def ring6nbrs : Nat → List Nat
  | 0 => [1]
  | 1 => [2]
  | 2 => [3]
  | 3 => [4]
  | 4 => [5]
  | 5 => [0]
  | _ => []

/-! ## Embedding of the market graph (src/main.rs)

Machine floats become `ℚ`.  Graph nodes are labels in insertion order
(`add_node` appends, so a node's index is its position); the edge list is
kept most-recently-added first, which is the order `petgraph` walks a
node's outgoing edges in `neighbors`, `find_edge` and `edges_connecting`. -/

structure EdgeW where
  price : ℚ
  size : ℚ
  deriving Repr, DecidableEq

structure MarketGraph where
  nodes : List String
  edges : List (Nat × Nat × EdgeW)
  deriving Repr, DecidableEq

/-- `graph.add_node`: append, returning index = former node count. -/
def addNode (g : MarketGraph) (lbl : String) : MarketGraph :=
  { g with nodes := g.nodes ++ [lbl] }

/-- `graph.add_edge`: always adds a new edge, in front of older ones;
parallel edges are possible. -/
def addEdge (g : MarketGraph) (a b : Nat) (w : EdgeW) : MarketGraph :=
  { g with edges := (a, b, w) :: g.edges }

/-- `graph.edges_connecting(a, b).next().map(weight)`: the most recently
added edge from `a` to `b`, if any. -/
def lookupEdge (g : MarketGraph) (a b : Nat) : Option EdgeW :=
  (g.edges.find? (fun e => e.1 == a && e.2.1 == b)).map (fun e => e.2.2)

/-- Replace the first (most recently added) `(a, b)` edge with weight `w`. -/
def replaceEdgeW (a b : Nat) (w : EdgeW) : List (Nat × Nat × EdgeW) → List (Nat × Nat × EdgeW)
  | [] => []
  | e :: t => if e.1 == a && e.2.1 == b then (a, b, w) :: t else e :: replaceEdgeW a b w t

/-- `graph.update_edge(a, b, w)`: replace the weight when an `(a, b)` edge
exists, otherwise add the edge. -/
def updateEdge (g : MarketGraph) (a b : Nat) (w : EdgeW) : MarketGraph :=
  if g.edges.any (fun e => e.1 == a && e.2.1 == b) then
    { g with edges := replaceEdgeW a b w g.edges }
  else
    addEdge g a b w

inductive Side
  | buy
  | sell
  deriving Repr, DecidableEq

/-- One parsed `l2update` change (src/main.rs lines 90–99): a `"buy"`
change sets the base→quote edge to the raw bid price and size; a `"sell"`
change sets the quote→base edge to the reciprocal ask with the size
re-denominated into quote units.  No fee enters here.  (`ℚ` division is
total with `1 / 0 = 0`; a zero ask is the degenerate quote the ranking
claims are about.) -/
def applyChange (g : MarketGraph) (base quot : Nat) (side : Side) (p sz : ℚ) : MarketGraph :=
  match side with
  | .buy => updateEdge g base quot ⟨p, sz⟩
  | .sell => updateEdge g quot base ⟨1 / p, sz * p⟩

/-- A snapshot event applies the best bid and the best ask (lines 75–87). -/
def applySnapshot (g : MarketGraph) (base quot : Nat) (ask bid askSz bidSz : ℚ) :
    MarketGraph :=
  updateEdge (updateEdge g base quot ⟨bid, bidSz⟩) quot base ⟨1 / ask, askSz * ask⟩

/-- `f64::MAX` — the starting value of `curr_size` in `calculate_gain`
(`use std::f64::MAX`, line 205): the largest finite double. -/
def f64MAX : ℚ := (2 ^ 53 - 1) * 2 ^ 971

/-- `let taker_fee = 1.2 / 100.0` (line 210). -/
def takerFee : ℚ := 12 / 1000

/-- `calculate_gain` (lines 203–217): walk the cycle's consecutive pairs
(`array_windows`), multiplying the fee-adjusted price into `percentage`
and carrying the re-denominated bottleneck in `curr_size`.  `none` when a
pair has no edge (the source would panic on `unwrap`). -/
def calculateGain (cycle : List Nat) (g : MarketGraph) : Option (ℚ × ℚ) :=
  (cycle.zip cycle.tail).foldl
    (fun acc fromTo => do
      let (perc, curr) ← acc
      let e ← lookupEdge g fromTo.1 fromTo.2
      pure (perc * (e.price * (1 - takerFee)), min curr e.size * e.price * (1 - takerFee)))
    (some (1, f64MAX))

/-- The edge weights along a cycle, when every consecutive pair has one. -/
def edgeWeights (g : MarketGraph) : List Nat → Option (List EdgeW)
  | a :: b :: rest => do
    let e ← lookupEdge g a b
    let tl ← edgeWeights g (b :: rest)
    pure (e :: tl)
  | _ => some []

/-- The specified multiplier: the product over the cycle's edges of
`price · (1 − fee)`. -/
def specMultiplier (ws : List EdgeW) : ℚ :=
  (ws.map (fun e => e.price * (1 - takerFee))).prod

/-- The specification's bottleneck recurrence, with `none` as the `+∞`
starting value: the first hop replaces it by `size · price · (1 − fee)`
because `min (+∞, s) = s`, and every later hop folds
`min (running, size) · price · (1 − fee)`. -/
def specBottleneck (ws : List EdgeW) : Option ℚ :=
  ws.foldl
    (fun r e =>
      match r with
      | none => some (e.size * e.price * (1 - takerFee))
      | some c => some (min c e.size * e.price * (1 - takerFee)))
    none

/-- The inner fold of `calculate_gain` once the edge weights are known. -/
def gainFold (acc : ℚ × ℚ) (ws : List EdgeW) : ℚ × ℚ :=
  ws.foldl
    (fun pc e => (pc.1 * (e.price * (1 - takerFee)), min pc.2 e.size * e.price * (1 - takerFee)))
    acc

/-! ## The gain ranking (src/main.rs lines 104–108)

A gain is an `(f64, f64)` pair, and either component can be NaN — for
example a divide-by-zero ask stores price `∞`, and `∞ · 0` during the gain
walk is NaN.  A NaN is modelled as `none`; `partial_cmp` is undefined as
soon as a NaN is compared. -/

/-- A machine float that may be NaN. -/
abbrev FVal := Option ℚ

/-- `f64::partial_cmp`: undefined whenever either side is NaN. -/
def fvalCmp : FVal → FVal → Option Ordering
  | some a, some b => some (if a < b then .lt else if b < a then .gt else .eq)
  | _, _ => none

/-- Derived `PartialOrd` on the pair `(f64, f64)`: lexicographic, undefined
as soon as a needed component comparison is undefined. -/
def gainCmp (x y : FVal × FVal) : Option Ordering :=
  match fvalCmp x.1 y.1 with
  | some .eq => fvalCmp x.2 y.2
  | o => o

/-- Line 105: `.max_by(|a, b| a.gain.partial_cmp(&b.gain).unwrap()).unwrap()`.
`Iterator::max_by` folds `cmp::max_by`, keeping the later of two equal
maxima; every comparison unwraps a `partial_cmp`.  An undefined comparison
— and likewise an empty iterator — is a panic, modelled as `Except.error`. -/
def rankStep (acc y : FVal × FVal) : Except Unit (FVal × FVal) :=
  match gainCmp acc y with
  | none => .error ()
  | some .gt => .ok acc
  | some _ => .ok y

def rankBest : List (FVal × FVal) → Except Unit (FVal × FVal)
  | [] => .error ()
  | x :: rest => rest.foldlM rankStep x

/-! ## Graph build and prune (src/main.rs `main`, lines 146–192) -/

structure CoinbasePair where
  id : String
  baseCurrency : String
  quoteCurrency : String
  deriving Repr, DecidableEq

/-- The view-only currency skip (lines 151–156 and 165–170). -/
def skipPair (p : CoinbasePair) : Bool :=
  p.baseCurrency == "EUR" || p.quoteCurrency == "EUR" ||
    p.baseCurrency == "GBP" || p.quoteCurrency == "GBP"

/-- `node_map.entry(..).or_insert_with(|| graph.add_node(..))`: add the
label only when it is not present yet. -/
def addNodeIdem (g : MarketGraph) (lbl : String) : MarketGraph :=
  if g.nodes.contains lbl then g else addNode g lbl

/-- `node_map[label]`: the index of a present label. -/
def nodeIdx (g : MarketGraph) (lbl : String) : Nat :=
  (g.nodes.findIdx? (fun x => x == lbl)).getD 0

def zeroEdge : EdgeW := ⟨0, 0⟩

/-- First build pass: nodes of every non-skipped pair (lines 149–160). -/
def buildNodes (catalog : List CoinbasePair) : MarketGraph :=
  catalog.foldl
    (fun g p =>
      if skipPair p then g
      else addNodeIdem (addNodeIdem g p.baseCurrency) p.quoteCurrency)
    ⟨[], []⟩

/-- Second build pass: a placeholder edge in both directions for every
non-skipped pair (lines 163–176). -/
def buildGraph (catalog : List CoinbasePair) : MarketGraph :=
  catalog.foldl
    (fun g p =>
      if skipPair p then g
      else
        let b := nodeIdx g p.baseCurrency
        let q := nodeIdx g p.quoteCurrency
        addEdge (addEdge g b q zeroEdge) q b zeroEdge)
    (buildNodes catalog)

/-- A node's outgoing-edge count (`edges_directed(.., Outgoing).count()`). -/
def outDeg (g : MarketGraph) (i : Nat) : Nat :=
  g.edges.countP (fun e => e.1 == i)

/-- Node-list part of `petgraph`'s `remove_node(i)`: the node with the last
index moves into slot `i`, and the list shrinks by one. -/
def nodesRemove (xs : List String) (i : Nat) : List String :=
  (xs.set i (xs.getD (xs.length - 1) "")).dropLast

/-- `petgraph`'s `remove_node(i)`: drop the incident edges, move the node
with the last index into slot `i`, and repoint edges that referenced the
moved index.  (`petgraph` also reorders its edge arena while doing this;
no claim below depends on edge order after pruning, so the edge list is
kept in filtered order.) -/
def removeNode (g : MarketGraph) (i : Nat) : MarketGraph :=
  let last := g.nodes.length - 1
  ⟨nodesRemove g.nodes i,
    (g.edges.filter (fun e => !(e.1 == i) && !(e.2.1 == i))).map
      (fun e => (if e.1 = last then i else e.1, if e.2.1 = last then i else e.2.1, e.2.2))⟩

/-- Lines 180–190: collect the nodes with exactly one outgoing edge, then
remove them in reverse (descending-index) order — a single pass over the
degrees observed before any removal. -/
def pruneSingleExit (g : MarketGraph) : MarketGraph :=
  (((List.range g.nodes.length).filter (fun i => outDeg g i == 1)).reverse).foldl removeNode g

/-- The node labels the pruning pass keeps: those whose position had an
outgoing-edge count different from one, in position order. -/
def keepNodes (g : MarketGraph) : List String :=
  ((List.range g.nodes.length).filter (fun i => !(outDeg g i == 1))).map
    (fun i => g.nodes.getD i "")

/-! ## Best-ever tracking (spec-modelled)

Modelled from the spec: the engine's best-ever record.  The sources only
declare the stored field (`best_ever_opportunity: Option<ArbitrageOpportunity>`
in src/ui.rs `AppState`, with `multiplier` and `size_usd`); the update rule
itself appears nowhere under src/, so it follows the specification §4.3:
replace the record when the current best's multiplier exceeds the stored
one (or none is stored yet) and clears the reportable threshold
(`multiplier > 1.0`). -/

structure Opportunity where
  multiplier : ℚ
  sizeUsd : ℚ
  deriving Repr, DecidableEq

def reportThreshold : ℚ := 1

/-- Modelled from the spec: one best-ever update step (spec §4.3,
"Best-ever tracking"). -/
def updateBestEver (best : Option Opportunity) (cur : Opportunity) : Option Opportunity :=
  match best with
  | none => if reportThreshold < cur.multiplier then some cur else none
  | some b =>
    if b.multiplier < cur.multiplier ∧ reportThreshold < cur.multiplier then some cur
    else some b

/-- Modelled from the spec: the record after a sequence of per-event
current bests. -/
def bestEverAfter (events : List Opportunity) (b0 : Option Opportunity) : Option Opportunity :=
  events.foldl updateBestEver b0

/-- The stored multiplier, when a record is stored. -/
def bestMult (b : Option Opportunity) : Option ℚ := b.map (fun x => x.multiplier)

/-- A concrete three-currency graph realizing the specification's
bottleneck example (§8), used by witnesses. -/
def gainExample : MarketGraph :=
  ⟨["A", "B", "C"], [(0, 1, ⟨2, 10⟩), (1, 2, ⟨1/2, 100⟩), (2, 0, ⟨1, 1⟩)]⟩

/-! # Theorems -/

/-! ## Best-ever tracking (C9) -/

lemma updateBestEver_mult_le (b : Option Opportunity) (c : Opportunity) (m : ℚ)
    (h : bestMult b = some m) :
    ∃ m', bestMult (updateBestEver b c) = some m' ∧ m ≤ m' := by
  cases b with
  | none => simp [bestMult] at h
  | some x =>
    have hm : x.multiplier = m := by simpa [bestMult] using h
    subst hm
    by_cases hc : x.multiplier < c.multiplier ∧ reportThreshold < c.multiplier
    · exact ⟨c.multiplier, by simp [updateBestEver, hc, bestMult], le_of_lt hc.1⟩
    · exact ⟨x.multiplier, by simp [updateBestEver, hc, bestMult], le_refl _⟩

lemma bestEverAfter_mult_le (evs : List Opportunity) :
    ∀ (b0 : Option Opportunity) (m : ℚ), bestMult b0 = some m →
      ∃ m', bestMult (bestEverAfter evs b0) = some m' ∧ m ≤ m' := by
  induction evs with
  | nil => exact fun b0 m h => ⟨m, h, le_refl m⟩
  | cons e t ih =>
    intro b0 m h
    obtain ⟨m1, h1, hle1⟩ := updateBestEver_mult_le b0 e m h
    obtain ⟨m2, h2, hle2⟩ := ih (updateBestEver b0 e) m1 h1
    exact ⟨m2, h2, le_trans hle1 hle2⟩

/-- C9: across any sequence of per-event current bests, the stored
best-ever multiplier never decreases, and a single step changes the record
only when the incoming multiplier strictly exceeds the stored one (when one
is stored) and clears the reportable threshold of 1.0.
(Modelled from the spec: the update rule is not in src/, only the stored
field is, in `AppState`.) -/
theorem bestEver_monotone_and_gated :
    (∀ (evs : List Opportunity) (b0 : Option Opportunity) (m : ℚ),
        bestMult b0 = some m →
        ∃ m', bestMult (bestEverAfter evs b0) = some m' ∧ m ≤ m') ∧
    (∀ (b : Option Opportunity) (c : Opportunity),
        updateBestEver b c ≠ b →
        reportThreshold < c.multiplier ∧
          ∀ x, b = some x → x.multiplier < c.multiplier) := by
  refine ⟨bestEverAfter_mult_le, fun b c hne => ?_⟩
  cases b with
  | none =>
    by_cases hc : reportThreshold < c.multiplier
    · exact ⟨hc, fun x hx => by cases hx⟩
    · exact absurd (by simp [updateBestEver, hc]) hne
  | some x =>
    by_cases hc : x.multiplier < c.multiplier ∧ reportThreshold < c.multiplier
    · exact ⟨hc.2, fun y hy => by cases hy; exact hc.1⟩
    · exact absurd (by simp [updateBestEver, hc]) hne

/-- Witness for C9 at a concrete stored record and event. -/
theorem bestEver_monotone_witness :
    ∃ m', bestMult (bestEverAfter [⟨3, 1⟩] (some ⟨2, 5⟩)) = some m' ∧ (2 : ℚ) ≤ m' :=
  bestEver_monotone_and_gated.1 [⟨3, 1⟩] (some ⟨2, 5⟩) 2 rfl

/-! ## Ranking on NaN (C2) -/

lemma fvalCmp_none_left (x : FVal) : fvalCmp none x = none := rfl

lemma fvalCmp_none_right (a : ℚ) : fvalCmp (some a) none = none := rfl

lemma rankStep_foldlM_error (rest : List (FVal × FVal)) :
    ∀ (acc : FVal × FVal),
      ((acc.1 = none ∧ rest ≠ []) ∨ (∃ gv ∈ rest, gv.1 = none)) →
      rest.foldlM rankStep acc = .error () := by
  induction rest with
  | nil =>
    intro acc h
    rcases h with ⟨_, hne⟩ | ⟨gv, hmem, _⟩
    · exact absurd rfl hne
    · cases hmem
  | cons y t ih =>
    intro acc h
    rw [List.foldlM_cons]
    rcases h with ⟨hacc, _⟩ | ⟨gv, hmem, hnan⟩
    · have hstep : rankStep acc y = .error () := by
        unfold rankStep gainCmp
        rw [hacc, fvalCmp_none_left]
      rw [hstep]; rfl
    · rcases List.mem_cons.mp hmem with hgy | hmem'
      · cases hacc : acc.1 with
        | none =>
          have hstep : rankStep acc y = .error () := by
            unfold rankStep gainCmp
            rw [hacc, fvalCmp_none_left]
          rw [hstep]; rfl
        | some a =>
          have hyn : y.1 = none := by rw [← hgy]; exact hnan
          have hstep : rankStep acc y = .error () := by
            unfold rankStep gainCmp
            rw [hacc, hyn, fvalCmp_none_right]
          rw [hstep]; rfl
      · cases hstep : rankStep acc y with
        | error e =>
          cases e; rfl
        | ok acc' =>
          exact ih acc' (Or.inr ⟨gv, hmem', hnan⟩)

/-- C2 (amended): whenever the ranking pass compares at least two cycles
and some cycle's multiplier is NaN, the comparator's `unwrap` fails and the
process panics — the offending cycle is not excluded, and no next event is
reached. -/
theorem rankBest_nan_panics :
    ∀ (l : List (FVal × FVal)), 2 ≤ l.length → (∃ gv ∈ l, gv.1 = none) →
      rankBest l = .error () := by
  intro l hl h
  cases l with
  | nil => simp at hl
  | cons x rest =>
    obtain ⟨gv, hmem, hnan⟩ := h
    show rest.foldlM rankStep x = .error ()
    apply rankStep_foldlM_error
    rcases List.mem_cons.mp hmem with hgx | hmem'
    · refine Or.inl ⟨by rw [← hgx]; exact hnan, ?_⟩
      cases rest with
      | nil => simp at hl
      | cons _ _ => simp
    · exact Or.inr ⟨gv, hmem', hnan⟩

/-- Witness for C2's amended statement at a concrete ranking pass. -/
theorem rankBest_nan_panics_witness :
    rankBest [(some 1, some 1), ((none : FVal), some 0), (some 2, some 2)] = .error () :=
  rankBest_nan_panics _ (by decide) ⟨((none : FVal), some 0), by decide, rfl⟩

/-- Counterexample to C2 as stated: with a NaN gain present the ranking
pass does not exclude the offending cycle and continue — it aborts
(`partial_cmp(..).unwrap()` on line 105 fails). -/
theorem rankBest_nan_counterexample :
    rankBest [((none : FVal), some 0), (some 1, some 1)] = .error () := rfl

/-! ## EUR/GBP exclusion at build (C10) -/

lemma foldl_skip_eq_foldl_filter (f : MarketGraph → CoinbasePair → MarketGraph) :
    ∀ (l : List CoinbasePair) (g : MarketGraph),
      l.foldl (fun g p => if skipPair p then g else f g p) g
        = (l.filter (fun p => !skipPair p)).foldl
            (fun g p => if skipPair p then g else f g p) g := by
  intro l
  induction l with
  | nil => intro g; rfl
  | cons p t ih =>
    intro g
    rw [List.foldl_cons, List.filter_cons]
    cases hp : skipPair p with
    | true => simpa [hp] using ih g
    | false => simpa [hp] using ih (f g p)

lemma buildGraph_nodes_eq (catalog : List CoinbasePair) :
    (buildGraph catalog).nodes = (buildNodes catalog).nodes := by
  unfold buildGraph
  generalize buildNodes catalog = g
  induction catalog generalizing g with
  | nil => rfl
  | cons p t ih =>
    rw [List.foldl_cons]
    by_cases hp : skipPair p
    · rw [if_pos hp]; exact ih g
    · rw [if_neg hp]; exact ih _

lemma addNodeIdem_no_new (g : MarketGraph) (lbl : String)
    (h : ∀ x ∈ g.nodes, x ≠ "EUR" ∧ x ≠ "GBP")
    (hl : lbl ≠ "EUR" ∧ lbl ≠ "GBP") :
    ∀ x ∈ (addNodeIdem g lbl).nodes, x ≠ "EUR" ∧ x ≠ "GBP" := by
  intro x hx
  unfold addNodeIdem at hx
  by_cases hc : g.nodes.contains lbl
  · rw [if_pos hc] at hx; exact h x hx
  · rw [if_neg hc] at hx
    rcases List.mem_append.mp hx with hx' | hx'
    · exact h x hx'
    · rcases List.mem_singleton.mp hx' with rfl
      exact hl

lemma skipPair_false_labels (p : CoinbasePair) (hp : skipPair p = false) :
    (p.baseCurrency ≠ "EUR" ∧ p.baseCurrency ≠ "GBP") ∧
      (p.quoteCurrency ≠ "EUR" ∧ p.quoteCurrency ≠ "GBP") := by
  unfold skipPair at hp
  simp only [Bool.or_eq_false_iff, beq_eq_false_iff_ne] at hp
  exact ⟨⟨hp.1.1.1, hp.1.2⟩, ⟨hp.1.1.2, hp.2⟩⟩

lemma buildNodes_no_eur_gbp (catalog : List CoinbasePair) :
    ∀ x ∈ (buildNodes catalog).nodes, x ≠ "EUR" ∧ x ≠ "GBP" := by
  unfold buildNodes
  have : ∀ (l : List CoinbasePair) (g : MarketGraph),
      (∀ x ∈ g.nodes, x ≠ "EUR" ∧ x ≠ "GBP") →
      ∀ x ∈ (l.foldl (fun g p =>
        if skipPair p then g
        else addNodeIdem (addNodeIdem g p.baseCurrency) p.quoteCurrency) g).nodes,
        x ≠ "EUR" ∧ x ≠ "GBP" := by
    intro l
    induction l with
    | nil => exact fun g h => h
    | cons p t ih =>
      intro g h
      rw [List.foldl_cons]
      by_cases hp : skipPair p
      · rw [if_pos hp]; exact ih g h
      · rw [if_neg hp]
        have hl := skipPair_false_labels p (by simpa using hp)
        exact ih _ (addNodeIdem_no_new _ _ (addNodeIdem_no_new _ _ h hl.1) hl.2)
  exact this catalog ⟨[], []⟩ (by intro x hx; cases hx)

/-- C10: pairs quoting EUR or GBP are skipped entirely during the build —
the built graph is the one built from the catalog with those pairs
removed, and no node is labeled "EUR" or "GBP" (hence no edge touches such
a node and no cycle can include those currencies). -/
theorem buildGraph_excludes_eur_gbp :
    (∀ catalog : List CoinbasePair,
        buildGraph catalog = buildGraph (catalog.filter (fun p => !skipPair p))) ∧
    (∀ (catalog : List CoinbasePair) (lbl : String),
        lbl ∈ (buildGraph catalog).nodes → lbl ≠ "EUR" ∧ lbl ≠ "GBP") := by
  constructor
  · intro catalog
    unfold buildGraph buildNodes
    rw [← foldl_skip_eq_foldl_filter, ← foldl_skip_eq_foldl_filter]
  · intro catalog lbl hmem
    rw [buildGraph_nodes_eq] at hmem
    exact buildNodes_no_eur_gbp catalog lbl hmem

/-- Witness for C10 at a concrete catalog. -/
theorem buildGraph_excludes_witness :
    ("BTC" : String) ≠ "EUR" ∧ ("BTC" : String) ≠ "GBP" :=
  buildGraph_excludes_eur_gbp.2 [⟨"BTC-USD", "BTC", "USD"⟩] "BTC" (by decide)

/-! ## Update events set exactly one edge (C6) -/

lemma pair_beq_false (a b x y : Nat) (hne : ¬(x = a ∧ y = b)) :
    ((a == x) && (b == y)) = false := by
  cases hax : (a == x) with
  | false => rfl
  | true =>
    have hxa : a = x := by simpa using hax
    cases hby : (b == y) with
    | false => rfl
    | true =>
      have hyb : b = y := by simpa using hby
      exact absurd ⟨hxa.symm, hyb.symm⟩ hne

lemma find?_replaceEdgeW_self (a b : Nat) (w : EdgeW) :
    ∀ l : List (Nat × Nat × EdgeW),
      l.any (fun e => e.1 == a && e.2.1 == b) = true →
      (replaceEdgeW a b w l).find? (fun e => e.1 == a && e.2.1 == b) = some (a, b, w) := by
  intro l
  induction l with
  | nil => intro h; cases h
  | cons e t ih =>
    intro h
    cases he : (e.1 == a && e.2.1 == b) with
    | true => simp [replaceEdgeW, he, List.find?_cons]
    | false =>
      have h' : t.any (fun e => e.1 == a && e.2.1 == b) = true := by
        simpa [he] using h
      simp [replaceEdgeW, he, List.find?_cons, ih h']

lemma find?_replaceEdgeW_frame (a b x y : Nat) (w : EdgeW) (hne : ¬(x = a ∧ y = b)) :
    ∀ l : List (Nat × Nat × EdgeW),
      (replaceEdgeW a b w l).find? (fun e => e.1 == x && e.2.1 == y)
        = l.find? (fun e => e.1 == x && e.2.1 == y) := by
  have hq := pair_beq_false a b x y hne
  intro l
  induction l with
  | nil => rfl
  | cons e t ih =>
    cases he : (e.1 == a && e.2.1 == b) with
    | true =>
      have h1 : e.1 = a ∧ e.2.1 = b := by simpa using he
      simp [replaceEdgeW, he, List.find?_cons, hq, h1.1, h1.2]
    | false =>
      simp only [replaceEdgeW, he, Bool.false_eq_true, if_false, List.find?_cons]
      cases heq : (e.1 == x && e.2.1 == y) with
      | true => simp [heq]
      | false => simp [heq, ih]

lemma lookupEdge_updateEdge_self (g : MarketGraph) (a b : Nat) (w : EdgeW) :
    lookupEdge (updateEdge g a b w) a b = some w := by
  unfold updateEdge
  by_cases h : g.edges.any (fun e => e.1 == a && e.2.1 == b) = true
  · rw [if_pos h]
    show ((replaceEdgeW a b w g.edges).find? (fun e => e.1 == a && e.2.1 == b)).map
        (fun e => e.2.2) = some w
    rw [find?_replaceEdgeW_self a b w g.edges h]
    rfl
  · rw [if_neg h]
    show ((((a, b, w) :: g.edges).find? (fun e => e.1 == a && e.2.1 == b))).map
        (fun e => e.2.2) = some w
    rw [List.find?_cons]
    simp

lemma lookupEdge_updateEdge_frame (g : MarketGraph) (a b x y : Nat) (w : EdgeW)
    (hne : ¬(x = a ∧ y = b)) :
    lookupEdge (updateEdge g a b w) x y = lookupEdge g x y := by
  have hq := pair_beq_false a b x y hne
  unfold updateEdge
  by_cases h : g.edges.any (fun e => e.1 == a && e.2.1 == b) = true
  · rw [if_pos h]
    show ((replaceEdgeW a b w g.edges).find? (fun e => e.1 == x && e.2.1 == y)).map
        (fun e => e.2.2) = lookupEdge g x y
    rw [find?_replaceEdgeW_frame a b x y w hne g.edges]
    rfl
  · rw [if_neg h]
    show ((((a, b, w) :: g.edges).find? (fun e => e.1 == x && e.2.1 == y))).map
        (fun e => e.2.2) = lookupEdge g x y
    rw [List.find?_cons]
    have hq' : (((a, b, w).1 == x) && ((a, b, w).2.1 == y)) = false := hq
    simp only [hq', Bool.false_eq_true, if_false]
    rfl

/-- C6: a buy change sets exactly the base→quote edge to the raw
`{price, size}`, a sell change sets exactly the quote→base edge to
`{1/price, size·price}`, every other ordered pair keeps its weight, and no
taker fee enters the stored weight. -/
theorem applyChange_sets_exactly :
    ∀ (g : MarketGraph) (base quot : Nat) (p sz : ℚ),
      (lookupEdge (applyChange g base quot .buy p sz) base quot = some ⟨p, sz⟩ ∧
        ∀ x y, ¬(x = base ∧ y = quot) →
          lookupEdge (applyChange g base quot .buy p sz) x y = lookupEdge g x y) ∧
      (lookupEdge (applyChange g base quot .sell p sz) quot base = some ⟨1 / p, sz * p⟩ ∧
        ∀ x y, ¬(x = quot ∧ y = base) →
          lookupEdge (applyChange g base quot .sell p sz) x y = lookupEdge g x y) :=
  fun g base quot p sz =>
    ⟨⟨lookupEdge_updateEdge_self g base quot ⟨p, sz⟩,
        fun x y hne => lookupEdge_updateEdge_frame g base quot x y ⟨p, sz⟩ hne⟩,
      ⟨lookupEdge_updateEdge_self g quot base ⟨1 / p, sz * p⟩,
        fun x y hne => lookupEdge_updateEdge_frame g quot base x y ⟨1 / p, sz * p⟩ hne⟩⟩

/-- Witness for C6 at a concrete graph, event and frame pair. -/
theorem applyChange_sets_exactly_witness :
    lookupEdge (applyChange ⟨["A", "B"], []⟩ 0 1 .buy 2 3) 0 1 = some ⟨2, 3⟩ ∧
      lookupEdge (applyChange ⟨["A", "B"], []⟩ 0 1 .buy 2 3) 1 0 =
        lookupEdge ⟨["A", "B"], []⟩ 1 0 :=
  ⟨(applyChange_sets_exactly ⟨["A", "B"], []⟩ 0 1 2 3).1.1,
    (applyChange_sets_exactly ⟨["A", "B"], []⟩ 0 1 2 3).1.2 1 0 (by simp)⟩

/-! ## The gain computation (C3) -/

/-- The bottleneck recurrence from a finite running size. -/
def botFrom (c : ℚ) (ws : List EdgeW) : ℚ :=
  ws.foldl (fun c e => min c e.size * e.price * (1 - takerFee)) c

lemma gainFold_cons (acc : ℚ × ℚ) (e : EdgeW) (tl : List EdgeW) :
    gainFold acc (e :: tl)
      = gainFold (acc.1 * (e.price * (1 - takerFee)),
          min acc.2 e.size * e.price * (1 - takerFee)) tl := rfl

lemma calculateGain_eq_gainFold (g : MarketGraph) :
    ∀ (cycle : List Nat) (ws : List EdgeW) (acc : ℚ × ℚ),
      edgeWeights g cycle = some ws →
      (cycle.zip cycle.tail).foldl
        (fun acc fromTo => do
          let (perc, curr) ← acc
          let e ← lookupEdge g fromTo.1 fromTo.2
          pure (perc * (e.price * (1 - takerFee)),
            min curr e.size * e.price * (1 - takerFee)))
        (some acc) = some (gainFold acc ws) := by
  intro cycle
  induction cycle with
  | nil => intro ws acc hw; cases hw; rfl
  | cons a rest ih =>
    intro ws acc hw
    cases rest with
    | nil => cases hw; rfl
    | cons b rest' =>
      unfold edgeWeights at hw
      cases he : lookupEdge g a b with
      | none => rw [he] at hw; cases hw
      | some e =>
        rw [he] at hw
        cases htl : edgeWeights g (b :: rest') with
        | none => rw [htl] at hw; cases hw
        | some tl =>
          rw [htl] at hw
          have hws : ws = e :: tl := by
            simpa [Option.bind] using hw.symm
          subst hws
          have hzip : ((a :: b :: rest').zip (a :: b :: rest').tail)
              = (a, b) :: ((b :: rest').zip (b :: rest').tail) := rfl
          rw [hzip, List.foldl_cons]
          have hstep : (do
              let (perc, curr) ← (some acc : Option (ℚ × ℚ))
              let e ← lookupEdge g a b
              pure (perc * (e.price * (1 - takerFee)),
                min curr e.size * e.price * (1 - takerFee)))
              = some (acc.1 * (e.price * (1 - takerFee)),
                  min acc.2 e.size * e.price * (1 - takerFee)) := by
            rw [show ((some acc : Option (ℚ × ℚ)) >>= fun x => _) = _ from rfl]
            simp [he]
          rw [hstep, ih tl _ htl, gainFold_cons]

lemma gainFold_fst (ws : List EdgeW) :
    ∀ acc : ℚ × ℚ, (gainFold acc ws).1 = acc.1 * specMultiplier ws := by
  induction ws with
  | nil => intro acc; simp [gainFold, specMultiplier]
  | cons e tl ih =>
    intro acc
    rw [gainFold_cons, ih]
    simp only [specMultiplier, List.map_cons, List.prod_cons]
    ring

lemma gainFold_snd (ws : List EdgeW) :
    ∀ acc : ℚ × ℚ, (gainFold acc ws).2 = botFrom acc.2 ws := by
  induction ws with
  | nil => intro acc; rfl
  | cons e tl ih =>
    intro acc
    rw [gainFold_cons, ih]
    rfl

lemma specBottleneck_from_some (ws : List EdgeW) :
    ∀ c : ℚ,
      ws.foldl
        (fun r e =>
          match r with
          | none => some (e.size * e.price * (1 - takerFee))
          | some c => some (min c e.size * e.price * (1 - takerFee)))
        (some c) = some (botFrom c ws) := by
  induction ws with
  | nil => intro c; rfl
  | cons e tl ih =>
    intro c
    rw [List.foldl_cons]
    exact ih _

/-- C3: for a cycle all of whose consecutive pairs have edges, the computed
gain is the specified one — the multiplier is the product over the edges of
`price · (1 − fee)`, and the bottleneck is the running-size recurrence
started at `+∞` (each edge's finite `f64` size is at most `f64::MAX`, so
the code's `f64::MAX` seed realizes the `+∞` start). -/
theorem calculateGain_spec :
    ∀ (g : MarketGraph) (cycle : List Nat) (ws : List EdgeW),
      edgeWeights g cycle = some ws → ws ≠ [] →
      (∀ e ∈ ws, e.size ≤ f64MAX) →
      ∃ bsz, specBottleneck ws = some bsz ∧
        calculateGain cycle g = some (specMultiplier ws, bsz) := by
  intro g cycle ws hw hne hsz
  cases ws with
  | nil => exact absurd rfl hne
  | cons e tl =>
    refine ⟨botFrom (e.size * e.price * (1 - takerFee)) tl, ?_, ?_⟩
    · unfold specBottleneck
      rw [List.foldl_cons]
      exact specBottleneck_from_some tl _
    · unfold calculateGain
      rw [calculateGain_eq_gainFold g cycle (e :: tl) (1, f64MAX) hw]
      congr 1
      refine Prod.ext ?_ ?_
      · rw [gainFold_fst]
        exact one_mul _
      · rw [gainFold_snd]
        show botFrom f64MAX (e :: tl) = _
        unfold botFrom
        rw [List.foldl_cons, min_eq_right (hsz e (List.mem_cons_self e tl))]

/-- Witness for C3: the specification's own bottleneck example (§8), at the
fee the source hard-codes. -/
theorem calculateGain_spec_witness :
    ∃ bsz, specBottleneck [⟨2, 10⟩, ⟨1/2, 100⟩, ⟨1, 1⟩] = some bsz ∧
      calculateGain [0, 1, 2, 0] gainExample
        = some (specMultiplier [⟨2, 10⟩, ⟨1/2, 100⟩, ⟨1, 1⟩], bsz) :=
  calculateGain_spec gainExample [0, 1, 2, 0] [⟨2, 10⟩, ⟨1/2, 100⟩, ⟨1, 1⟩]
    (by rfl) (by simp)
    (by intro e he; fin_cases he <;> norm_num [f64MAX])

/-! ## One edge per ordered pair; replace, not accumulate (C7) -/

/-- The ordered (source, target) pair of an edge. -/
def edgeKey (e : Nat × Nat × EdgeW) : Nat × Nat := (e.1, e.2.1)

lemma map_edgeKey_replaceEdgeW (a b : Nat) (w : EdgeW) :
    ∀ l : List (Nat × Nat × EdgeW),
      (replaceEdgeW a b w l).map edgeKey = l.map edgeKey := by
  intro l
  induction l with
  | nil => rfl
  | cons e t ih =>
    cases he : (e.1 == a && e.2.1 == b) with
    | true =>
      have h1 : e.1 = a ∧ e.2.1 = b := by simpa using he
      simp only [replaceEdgeW, he, if_true, List.map_cons]
      rw [show edgeKey (a, b, w) = edgeKey e from by simp [edgeKey, h1.1, h1.2]]
    | false =>
      simp only [replaceEdgeW, he, Bool.false_eq_true, if_false, List.map_cons, ih]

lemma any_eq_false_key_not_mem (a b : Nat) (l : List (Nat × Nat × EdgeW))
    (h : l.any (fun e => e.1 == a && e.2.1 == b) = false) :
    (a, b) ∉ l.map edgeKey := by
  intro hmem
  rcases List.mem_map.mp hmem with ⟨e, hel, hkey⟩
  have h1 : e.1 = a ∧ e.2.1 = b := by
    have := Prod.mk.injEq _ _ _ _ ▸ hkey
    exact ⟨congrArg Prod.fst hkey, congrArg Prod.snd hkey⟩
  have : l.any (fun e => e.1 == a && e.2.1 == b) = true :=
    List.any_eq_true.mpr ⟨e, hel, by simp [h1.1, h1.2]⟩
  rw [h] at this
  cases this

lemma updateEdge_keys_nodup (g : MarketGraph) (a b : Nat) (w : EdgeW)
    (h : (g.edges.map edgeKey).Nodup) :
    ((updateEdge g a b w).edges.map edgeKey).Nodup := by
  unfold updateEdge
  by_cases ha : g.edges.any (fun e => e.1 == a && e.2.1 == b) = true
  · rw [if_pos ha]
    show ((replaceEdgeW a b w g.edges).map edgeKey).Nodup
    rw [map_edgeKey_replaceEdgeW]
    exact h
  · rw [if_neg ha]
    show (((a, b, w) :: g.edges).map edgeKey).Nodup
    rw [List.map_cons]
    refine List.nodup_cons.mpr ⟨?_, h⟩
    refine any_eq_false_key_not_mem a b g.edges ?_
    revert ha
    cases g.edges.any (fun e => e.1 == a && e.2.1 == b) <;> simp

lemma replaceEdgeW_idem (a b : Nat) (w : EdgeW) :
    ∀ l : List (Nat × Nat × EdgeW),
      replaceEdgeW a b w (replaceEdgeW a b w l) = replaceEdgeW a b w l := by
  intro l
  induction l with
  | nil => rfl
  | cons e t ih =>
    cases he : (e.1 == a && e.2.1 == b) with
    | true =>
      simp only [replaceEdgeW, he, if_true]
      simp [replaceEdgeW]
    | false =>
      simp only [replaceEdgeW, he, Bool.false_eq_true, if_false]
      simp only [replaceEdgeW, he, Bool.false_eq_true, if_false, ih]

lemma any_replaceEdgeW_self (a b : Nat) (w : EdgeW) :
    ∀ l : List (Nat × Nat × EdgeW),
      l.any (fun e => e.1 == a && e.2.1 == b) = true →
      (replaceEdgeW a b w l).any (fun e => e.1 == a && e.2.1 == b) = true := by
  intro l
  induction l with
  | nil => intro h; cases h
  | cons e t ih =>
    intro h
    cases he : (e.1 == a && e.2.1 == b) with
    | true =>
      simp only [replaceEdgeW, he, if_true]
      simp
    | false =>
      simp only [replaceEdgeW, he, Bool.false_eq_true, if_false]
      have h' : t.any (fun e => e.1 == a && e.2.1 == b) = true := by simpa [he] using h
      simp [he, ih h']

lemma updateEdge_idem (g : MarketGraph) (a b : Nat) (w : EdgeW) :
    updateEdge (updateEdge g a b w) a b w = updateEdge g a b w := by
  unfold updateEdge
  by_cases ha : g.edges.any (fun e => e.1 == a && e.2.1 == b) = true
  · rw [if_pos ha]
    have ha2 : (replaceEdgeW a b w g.edges).any (fun e => e.1 == a && e.2.1 == b) = true :=
      any_replaceEdgeW_self a b w g.edges ha
    show updateEdge ⟨g.nodes, replaceEdgeW a b w g.edges⟩ a b w = _
    unfold updateEdge
    rw [if_pos (by simpa using ha2)]
    simp [replaceEdgeW_idem]
  · rw [if_neg ha]
    show updateEdge ⟨g.nodes, (a, b, w) :: g.edges⟩ a b w = _
    unfold updateEdge
    rw [if_pos (by simp)]
    show (⟨g.nodes, replaceEdgeW a b w ((a, b, w) :: g.edges)⟩ : MarketGraph) = _
    simp [replaceEdgeW, addEdge]

lemma replaceEdgeW_overwrite (a b : Nat) (w1 w2 : EdgeW) :
    ∀ l : List (Nat × Nat × EdgeW),
      replaceEdgeW a b w2 (replaceEdgeW a b w1 l) = replaceEdgeW a b w2 l := by
  intro l
  induction l with
  | nil => rfl
  | cons e t ih =>
    cases he : (e.1 == a && e.2.1 == b) with
    | true =>
      simp only [replaceEdgeW, he, if_true]
      simp [replaceEdgeW]
    | false =>
      simp only [replaceEdgeW, he, Bool.false_eq_true, if_false]
      simp only [replaceEdgeW, he, Bool.false_eq_true, if_false, ih]

lemma updateEdge_overwrite (g : MarketGraph) (a b : Nat) (w1 w2 : EdgeW) :
    updateEdge (updateEdge g a b w1) a b w2 = updateEdge g a b w2 := by
  unfold updateEdge
  by_cases ha : g.edges.any (fun e => e.1 == a && e.2.1 == b) = true
  · rw [if_pos ha]
    have ha2 : (replaceEdgeW a b w1 g.edges).any (fun e => e.1 == a && e.2.1 == b) = true :=
      any_replaceEdgeW_self a b w1 g.edges ha
    show updateEdge ⟨g.nodes, replaceEdgeW a b w1 g.edges⟩ a b w2 = _
    unfold updateEdge
    rw [if_pos (by simpa using ha2), if_pos (by simpa using ha)]
    simp [replaceEdgeW_overwrite]
  · rw [if_neg ha]
    show updateEdge ⟨g.nodes, (a, b, w1) :: g.edges⟩ a b w2 = _
    unfold updateEdge
    rw [if_pos (by simp), if_neg (by simpa using ha)]
    simp [replaceEdgeW, addEdge]

lemma updateEdge_absorb (g : MarketGraph) (a b : Nat) (w : EdgeW)
    (h : lookupEdge g a b = some w) :
    updateEdge g a b w = g := by
  unfold lookupEdge at h
  cases hf : g.edges.find? (fun e => e.1 == a && e.2.1 == b) with
  | none => rw [hf] at h; cases h
  | some e =>
    rw [hf] at h
    have hw : e.2.2 = w := by simpa using h
    have hp := List.find?_some hf
    have h1 : e.1 = a ∧ e.2.1 = b := by simpa using hp
    have he : e = (a, b, w) := by
      rcases e with ⟨e1, e2, e3⟩
      simp only at h1 hw
      rw [h1.1, h1.2, hw]
    have hany : g.edges.any (fun e => e.1 == a && e.2.1 == b) = true :=
      List.any_eq_true.mpr ⟨e, List.mem_of_find?_eq_some hf, hp⟩
    have hrepl : replaceEdgeW a b w g.edges = g.edges := by
      have := hf
      rw [he] at this
      clear hf he h hp h1 hw hany
      revert this
      generalize g.edges = l
      induction l with
      | nil => intro h; cases h
      | cons e t ih =>
        intro hfind
        cases hp : (e.1 == a && e.2.1 == b) with
        | true =>
          simp only [List.find?_cons, hp] at hfind
          have he2 : e = (a, b, w) := by simpa using hfind
          simp [replaceEdgeW, hp, he2]
        | false =>
          simp only [List.find?_cons, hp] at hfind
          simp [replaceEdgeW, hp, ih hfind]
    unfold updateEdge
    rw [if_pos hany, hrepl]

/-- Re-applying the same parsed event — a single l2update change or a full
snapshot — leaves the graph unchanged: `update_edge` replaces, it does not
accumulate. -/
lemma applyEvent_idempotent :
    (∀ (g : MarketGraph) (base quot : Nat) (side : Side) (p sz : ℚ),
        applyChange (applyChange g base quot side p sz) base quot side p sz
          = applyChange g base quot side p sz) ∧
    (∀ (g : MarketGraph) (base quot : Nat) (ask bid askSz bidSz : ℚ),
        applySnapshot (applySnapshot g base quot ask bid askSz bidSz) base quot ask bid askSz bidSz
          = applySnapshot g base quot ask bid askSz bidSz) := by
  constructor
  · intro g base quot side p sz
    cases side with
    | buy => exact updateEdge_idem g base quot ⟨p, sz⟩
    | sell => exact updateEdge_idem g quot base ⟨1 / p, sz * p⟩
  · intro g base quot ask bid askSz bidSz
    unfold applySnapshot
    by_cases hbq : base = quot
    · subst hbq
      rw [updateEdge_overwrite, updateEdge_overwrite]
    · have habs : updateEdge
          (updateEdge (updateEdge g base quot ⟨bid, bidSz⟩) quot base ⟨1 / ask, askSz * ask⟩)
          base quot ⟨bid, bidSz⟩
          = updateEdge (updateEdge g base quot ⟨bid, bidSz⟩) quot base ⟨1 / ask, askSz * ask⟩ := by
        apply updateEdge_absorb
        rw [lookupEdge_updateEdge_frame (updateEdge g base quot ⟨bid, bidSz⟩) quot base base quot
          ⟨1 / ask, askSz * ask⟩ (fun hc => hbq hc.1)]
        exact lookupEdge_updateEdge_self g base quot ⟨bid, bidSz⟩
      rw [habs, updateEdge_idem]


/-! ### Uniqueness of ordered pairs after build -/

lemma addNodeIdem_mem_mono (g : MarketGraph) (lbl x : String) (h : x ∈ g.nodes) :
    x ∈ (addNodeIdem g lbl).nodes := by
  unfold addNodeIdem
  by_cases hc : g.nodes.contains lbl
  · rw [if_pos hc]; exact h
  · rw [if_neg hc]; exact List.mem_append.mpr (Or.inl h)

lemma addNodeIdem_mem_self (g : MarketGraph) (lbl : String) :
    lbl ∈ (addNodeIdem g lbl).nodes := by
  unfold addNodeIdem
  by_cases hc : g.nodes.contains lbl
  · rw [if_pos hc]; simpa using hc
  · rw [if_neg hc]; exact List.mem_append.mpr (Or.inr (List.mem_singleton.mpr rfl))

lemma buildNodesStep_mem_mono :
    ∀ (l : List CoinbasePair) (g : MarketGraph) (x : String), x ∈ g.nodes →
      x ∈ (l.foldl (fun g p =>
        if skipPair p then g
        else addNodeIdem (addNodeIdem g p.baseCurrency) p.quoteCurrency) g).nodes := by
  intro l
  induction l with
  | nil => exact fun g x h => h
  | cons p t ih =>
    intro g x h
    rw [List.foldl_cons]
    by_cases hp : skipPair p
    · rw [if_pos hp]; exact ih g x h
    · rw [if_neg hp]
      exact ih _ x (addNodeIdem_mem_mono _ _ _ (addNodeIdem_mem_mono _ _ _ h))

lemma buildNodes_mem (catalog : List CoinbasePair) (p : CoinbasePair)
    (hp : p ∈ catalog) (hs : skipPair p = false) :
    p.baseCurrency ∈ (buildNodes catalog).nodes ∧
      p.quoteCurrency ∈ (buildNodes catalog).nodes := by
  unfold buildNodes
  have aux : ∀ (l : List CoinbasePair) (g : MarketGraph), p ∈ l →
      p.baseCurrency ∈ (l.foldl (fun g p =>
        if skipPair p then g
        else addNodeIdem (addNodeIdem g p.baseCurrency) p.quoteCurrency) g).nodes ∧
      p.quoteCurrency ∈ (l.foldl (fun g p =>
        if skipPair p then g
        else addNodeIdem (addNodeIdem g p.baseCurrency) p.quoteCurrency) g).nodes := by
    intro l
    induction l with
    | nil => intro g h; cases h
    | cons q t ih =>
      intro g h
      rcases List.mem_cons.mp h with hq | ht
      · subst hq
        rw [List.foldl_cons, if_neg (by rw [hs]; exact fun h => by cases h)]
        constructor
        · exact buildNodesStep_mem_mono t _ _
            (addNodeIdem_mem_mono _ _ _ (addNodeIdem_mem_self g p.baseCurrency))
        · exact buildNodesStep_mem_mono t _ _ (addNodeIdem_mem_self _ p.quoteCurrency)
      · rw [List.foldl_cons]
        by_cases hq : skipPair q
        · rw [if_pos hq]; exact ih g ht
        · rw [if_neg hq]; exact ih _ ht
  exact aux catalog ⟨[], []⟩ hp

lemma findIdx?_getD_of_mem :
    ∀ (ns : List String) (lbl : String), lbl ∈ ns →
      ∃ i, ns.findIdx? (fun x => x == lbl) = some i ∧ ns.getD i "" = lbl := by
  intro ns
  induction ns with
  | nil => intro lbl h; cases h
  | cons a t ih =>
    intro lbl h
    cases ha : (a == lbl) with
    | true =>
      refine ⟨0, ?_, by simpa using ha⟩
      rw [List.findIdx?_cons]
      simp [ha]
    | false =>
      have hlt : lbl ∈ t := by
        rcases List.mem_cons.mp h with h1 | h2
        · exact absurd (by simp [h1]) (by simp [ha] : ¬(a == lbl) = true)
        · exact h2
      obtain ⟨i, hfi, hgd⟩ := ih lbl hlt
      refine ⟨i + 1, ?_, by simpa using hgd⟩
      rw [List.findIdx?_cons]
      simp [ha, hfi]

lemma nodeIdx_getD (g : MarketGraph) (lbl : String) (h : lbl ∈ g.nodes) :
    g.nodes.getD (nodeIdx g lbl) "" = lbl := by
  obtain ⟨i, hfi, hgd⟩ := findIdx?_getD_of_mem g.nodes lbl h
  unfold nodeIdx
  rw [hfi]
  exact hgd

lemma nodeIdx_inj (g : MarketGraph) (a b : String) (ha : a ∈ g.nodes) (hb : b ∈ g.nodes)
    (hne : a ≠ b) : nodeIdx g a ≠ nodeIdx g b := by
  intro h
  exact hne (by rw [← nodeIdx_getD g a ha, h, nodeIdx_getD g b hb])

lemma addNodeIdem_edges (g : MarketGraph) (lbl : String) :
    (addNodeIdem g lbl).edges = g.edges := by
  unfold addNodeIdem addNode
  split <;> rfl

/-- The node pass adds no edges. -/
lemma buildNodes_edges_nil (catalog : List CoinbasePair) :
    (buildNodes catalog).edges = [] := by
  unfold buildNodes
  have aux : ∀ (l : List CoinbasePair) (g : MarketGraph),
      (l.foldl (fun g p =>
        if skipPair p then g
        else addNodeIdem (addNodeIdem g p.baseCurrency) p.quoteCurrency) g).edges
        = g.edges := by
    intro l
    induction l with
    | nil => exact fun g => rfl
    | cons p t ih =>
      intro g
      rw [List.foldl_cons]
      by_cases hp : skipPair p
      · rw [if_pos hp]; exact ih g
      · rw [if_neg hp]
        rw [ih, addNodeIdem_edges, addNodeIdem_edges]
  exact aux catalog ⟨[], []⟩

lemma pass2_keys_nodup :
    ∀ (l : List CoinbasePair) (g : MarketGraph),
      (∀ p ∈ l, skipPair p = false →
          p.baseCurrency ∈ g.nodes ∧ p.quoteCurrency ∈ g.nodes ∧
            p.baseCurrency ≠ p.quoteCurrency) →
      l.Pairwise (fun p q =>
          skipPair p = false → skipPair q = false →
          ¬(p.baseCurrency = q.baseCurrency ∧ p.quoteCurrency = q.quoteCurrency) ∧
          ¬(p.baseCurrency = q.quoteCurrency ∧ p.quoteCurrency = q.baseCurrency)) →
      (g.edges.map edgeKey).Nodup →
      (∀ p ∈ l, skipPair p = false →
          (nodeIdx g p.baseCurrency, nodeIdx g p.quoteCurrency) ∉ g.edges.map edgeKey ∧
          (nodeIdx g p.quoteCurrency, nodeIdx g p.baseCurrency) ∉ g.edges.map edgeKey) →
      ((l.foldl (fun g p =>
          if skipPair p then g
          else addEdge (addEdge g (nodeIdx g p.baseCurrency) (nodeIdx g p.quoteCurrency) zeroEdge)
            (nodeIdx g p.quoteCurrency) (nodeIdx g p.baseCurrency) zeroEdge) g).edges.map
        edgeKey).Nodup := by
  intro l
  induction l with
  | nil => intro g _ _ hnd _; exact hnd
  | cons p t ih =>
    intro g hmem hpw hnd hnin
    rw [List.foldl_cons]
    rcases List.pairwise_cons.mp hpw with ⟨hrel, hpwt⟩
    by_cases hp : skipPair p
    · rw [if_pos hp]
      exact ih g (fun q hq => hmem q (List.mem_cons_of_mem p hq)) hpwt hnd
        (fun q hq => hnin q (List.mem_cons_of_mem p hq))
    · rw [if_neg hp]
      have hps : skipPair p = false := by simpa using hp
      obtain ⟨hpb, hpq, hpbq⟩ := hmem p (List.mem_cons_self p t) hps
      have hbiqi : nodeIdx g p.baseCurrency ≠ nodeIdx g p.quoteCurrency :=
        nodeIdx_inj g _ _ hpb hpq hpbq
      obtain ⟨hnin1, hnin2⟩ := hnin p (List.mem_cons_self p t) hps
      have hinj : ∀ x y : String, x ∈ g.nodes → y ∈ g.nodes →
          nodeIdx g x = nodeIdx g y → x = y := by
        intro x y hx hy hxy
        by_contra hne
        exact nodeIdx_inj g x y hx hy hne hxy
      apply ih
      · intro q hq hqs
        exact hmem q (List.mem_cons_of_mem p hq) hqs
      · exact hpwt
      · rw [show ((addEdge (addEdge g (nodeIdx g p.baseCurrency) (nodeIdx g p.quoteCurrency)
            zeroEdge) (nodeIdx g p.quoteCurrency) (nodeIdx g p.baseCurrency) zeroEdge).edges.map
              edgeKey)
            = (nodeIdx g p.quoteCurrency, nodeIdx g p.baseCurrency)
              :: (nodeIdx g p.baseCurrency, nodeIdx g p.quoteCurrency)
              :: g.edges.map edgeKey from rfl]
        refine List.nodup_cons.mpr ⟨?_, List.nodup_cons.mpr ⟨hnin1, hnd⟩⟩
        intro hc
        rcases List.mem_cons.mp hc with hc1 | hc2
        · exact hbiqi (congrArg Prod.fst hc1).symm
        · exact hnin2 hc2
      · intro q hq hqs
        obtain ⟨hqb, hqq, _⟩ := hmem q (List.mem_cons_of_mem p hq) hqs
        obtain ⟨hq1, hq2⟩ := hnin q (List.mem_cons_of_mem p hq) hqs
        obtain ⟨hd1, hd2⟩ := hrel q hq hps hqs
        rw [show ((addEdge (addEdge g (nodeIdx g p.baseCurrency) (nodeIdx g p.quoteCurrency)
            zeroEdge) (nodeIdx g p.quoteCurrency) (nodeIdx g p.baseCurrency) zeroEdge).edges.map
              edgeKey)
            = (nodeIdx g p.quoteCurrency, nodeIdx g p.baseCurrency)
              :: (nodeIdx g p.baseCurrency, nodeIdx g p.quoteCurrency)
              :: g.edges.map edgeKey from rfl]
        constructor
        · intro hc
          rcases List.mem_cons.mp hc with hc1 | hc
          · have e1 : nodeIdx g q.baseCurrency = nodeIdx g p.quoteCurrency :=
              congrArg Prod.fst hc1
            have e2 : nodeIdx g q.quoteCurrency = nodeIdx g p.baseCurrency :=
              congrArg Prod.snd hc1
            exact hd2 ⟨(hinj _ _ hqq hpb e2).symm, (hinj _ _ hqb hpq e1).symm⟩
          · rcases List.mem_cons.mp hc with hc2 | hc3
            · have e1 : nodeIdx g q.baseCurrency = nodeIdx g p.baseCurrency :=
                congrArg Prod.fst hc2
              have e2 : nodeIdx g q.quoteCurrency = nodeIdx g p.quoteCurrency :=
                congrArg Prod.snd hc2
              exact hd1 ⟨(hinj _ _ hqb hpb e1).symm, (hinj _ _ hqq hpq e2).symm⟩
            · exact hq1 hc3
        · intro hc
          rcases List.mem_cons.mp hc with hc1 | hc
          · have e1 : nodeIdx g q.quoteCurrency = nodeIdx g p.quoteCurrency :=
              congrArg Prod.fst hc1
            have e2 : nodeIdx g q.baseCurrency = nodeIdx g p.baseCurrency :=
              congrArg Prod.snd hc1
            exact hd1 ⟨(hinj _ _ hqb hpb e2).symm, (hinj _ _ hqq hpq e1).symm⟩
          · rcases List.mem_cons.mp hc with hc2 | hc3
            · have e1 : nodeIdx g q.quoteCurrency = nodeIdx g p.baseCurrency :=
                congrArg Prod.fst hc2
              have e2 : nodeIdx g q.baseCurrency = nodeIdx g p.quoteCurrency :=
                congrArg Prod.snd hc2
              exact hd2 ⟨(hinj _ _ hqq hpb e1).symm, (hinj _ _ hqb hpq e2).symm⟩
            · exact hq2 hc3

/-- C7 (amended): provided the catalog's non-skipped pairs have distinct
currencies within each pair and no two pairs share the same currency pair
(in either orientation), the built graph has at most one edge per ordered
(source, target) pair; `update_edge` preserves that invariant and replaces
rather than accumulates, so re-applying the same parsed event is a no-op. -/
theorem uniqueEdges_build_update_idem :
    (∀ catalog : List CoinbasePair,
        (∀ p ∈ catalog, skipPair p = false → p.baseCurrency ≠ p.quoteCurrency) →
        catalog.Pairwise (fun p q =>
          skipPair p = false → skipPair q = false →
          ¬(p.baseCurrency = q.baseCurrency ∧ p.quoteCurrency = q.quoteCurrency) ∧
          ¬(p.baseCurrency = q.quoteCurrency ∧ p.quoteCurrency = q.baseCurrency)) →
        ((buildGraph catalog).edges.map edgeKey).Nodup) ∧
    (∀ (g : MarketGraph) (a b : Nat) (w : EdgeW),
        (g.edges.map edgeKey).Nodup →
        ((updateEdge g a b w).edges.map edgeKey).Nodup) ∧
    (∀ (g : MarketGraph) (base quot : Nat) (side : Side) (p sz : ℚ),
        applyChange (applyChange g base quot side p sz) base quot side p sz
          = applyChange g base quot side p sz) ∧
    (∀ (g : MarketGraph) (base quot : Nat) (ask bid askSz bidSz : ℚ),
        applySnapshot (applySnapshot g base quot ask bid askSz bidSz)
            base quot ask bid askSz bidSz
          = applySnapshot g base quot ask bid askSz bidSz) := by
  refine ⟨?_, updateEdge_keys_nodup, applyEvent_idempotent.1, applyEvent_idempotent.2⟩
  intro catalog hlbl hpw
  show ((catalog.foldl (fun g p =>
      if skipPair p then g
      else addEdge (addEdge g (nodeIdx g p.baseCurrency) (nodeIdx g p.quoteCurrency) zeroEdge)
        (nodeIdx g p.quoteCurrency) (nodeIdx g p.baseCurrency) zeroEdge)
      (buildNodes catalog)).edges.map edgeKey).Nodup
  apply pass2_keys_nodup
  · intro p hp hps
    obtain ⟨h1, h2⟩ := buildNodes_mem catalog p hp hps
    exact ⟨h1, h2, hlbl p hp hps⟩
  · exact hpw
  · rw [buildNodes_edges_nil]
    exact List.nodup_nil
  · intro p hp hps
    refine ⟨?_, ?_⟩ <;> · rw [buildNodes_edges_nil]; simp

/-- Counterexample to C7 as stated: a catalog listing both orientations of
the same currency pair builds two parallel edges on the same ordered pair —
`add_edge` appends, it does not replace. -/
theorem buildGraph_parallel_edges_counterexample :
    ((buildGraph [⟨"X-Y", "X", "Y"⟩, ⟨"Y-X", "Y", "X"⟩]).edges.map edgeKey)
        = [(0, 1), (1, 0), (1, 0), (0, 1)] ∧
      ¬ ((buildGraph [⟨"X-Y", "X", "Y"⟩, ⟨"Y-X", "Y", "X"⟩]).edges.map edgeKey).Nodup := by
  constructor
  · decide
  · decide

/-- Witness for C7's amended statement at a concrete well-formed catalog. -/
theorem uniqueEdges_build_witness :
    ((buildGraph [⟨"X-Y", "X", "Y"⟩]).edges.map edgeKey).Nodup :=
  uniqueEdges_build_update_idem.1 [⟨"X-Y", "X", "Y"⟩] (by decide) (by decide)


/-! ## Single-pass prune of single-exit nodes (C8) -/

lemma nodesRemove_cons_succ (a : String) (t : List String) (i : Nat) (hi : i < t.length) :
    nodesRemove (a :: t) (i + 1) = a :: nodesRemove t i := by
  unfold nodesRemove
  cases t with
  | nil => exact absurd hi (by simp)
  | cons b t' =>
    have hlen1 : (a :: b :: t').length - 1 = t'.length + 1 := by simp
    have hlen2 : (b :: t').length - 1 = t'.length := by simp
    rw [hlen1, hlen2, List.getD_cons_succ]
    rw [show (a :: b :: t').set (i + 1) ((b :: t').getD t'.length "")
        = a :: (b :: t').set i ((b :: t').getD t'.length "") from rfl]
    rw [List.dropLast_cons_of_ne_nil]
    intro hc
    have : ((b :: t').set i ((b :: t').getD t'.length "")).length = 0 := by rw [hc]; rfl
    simp at this

lemma getD_cons_nodesRemove_perm :
    ∀ (xs : List String) (i : Nat), i < xs.length →
      (xs.getD i "" :: nodesRemove xs i).Perm xs := by
  intro xs
  induction xs with
  | nil => intro i h; exact absurd h (by simp)
  | cons a t ih =>
    intro i hi
    cases i with
    | zero =>
      cases t with
      | nil =>
        rw [show nodesRemove [a] 0 = [] from rfl]
        exact List.Perm.refl _
      | cons b t' =>
        have hne : (b :: t') ≠ [] := by intro h; cases h
        have hv : nodesRemove (a :: b :: t') 0
            = (b :: t').getLast hne :: (b :: t').dropLast := by
          unfold nodesRemove
          have hlen1 : (a :: b :: t').length - 1 = t'.length + 1 := by simp
          rw [hlen1, List.getD_cons_succ]
          rw [show (a :: b :: t').set 0 ((b :: t').getD t'.length "")
              = (b :: t').getD t'.length "" :: b :: t' from rfl]
          rw [List.dropLast_cons_of_ne_nil hne]
          have hlast : (b :: t').getD t'.length "" = (b :: t').getLast hne := by
            rw [List.getD_eq_getElem _ _ (by simp : t'.length < (b :: t').length),
              List.getLast_eq_getElem]
            simp
          rw [hlast]
        rw [show (a :: b :: t').getD 0 "" = a from rfl, hv]
        refine List.Perm.cons a ?_
        have hsplit : (b :: t').dropLast ++ [(b :: t').getLast hne] = b :: t' :=
          List.dropLast_append_getLast hne
        exact ((List.perm_append_singleton _ _).symm).trans (by rw [hsplit])
    | succ i' =>
      have hi' : i' < t.length := by simpa using hi
      rw [nodesRemove_cons_succ a t i' hi', List.getD_cons_succ]
      exact (List.Perm.swap a (t.getD i' "") (nodesRemove t i')).trans
        (List.Perm.cons a (ih i' hi'))

lemma nodesRemove_length (xs : List String) (i : Nat) :
    (nodesRemove xs i).length = xs.length - 1 := by
  unfold nodesRemove
  simp

lemma nodesRemove_getD_lt (xs : List String) (i j : Nat) (hi : i < xs.length) (hj : j < i) :
    (nodesRemove xs i).getD j "" = xs.getD j "" := by
  have hj1 : j < xs.length - 1 := by omega
  have hjr : j < (nodesRemove xs i).length := by rw [nodesRemove_length]; exact hj1
  have hjx : j < xs.length := by omega
  rw [List.getD_eq_getElem _ _ hjr, List.getD_eq_getElem _ _ hjx]
  unfold nodesRemove
  rw [List.getElem_dropLast]
  rw [List.getElem_set_ne (by omega)]

lemma foldl_nodesRemove_perm :
    ∀ (l : List Nat) (xs : List String), l.Pairwise (· > ·) →
      (∀ i ∈ l, i < xs.length) →
      ((l.foldl nodesRemove xs) ++ l.map (fun j => xs.getD j "")).Perm xs := by
  intro l
  induction l with
  | nil =>
    intro xs _ _
    simp
  | cons i t ih =>
    intro xs hpw hlt
    rcases List.pairwise_cons.mp hpw with ⟨hgt, hpwt⟩
    have hi : i < xs.length := hlt i (List.mem_cons_self i t)
    have hlt' : ∀ j ∈ t, j < (nodesRemove xs i).length := by
      intro j hj
      rw [nodesRemove_length]
      have := hgt j hj
      omega
    have hmap : t.map (fun j => (nodesRemove xs i).getD j "")
        = t.map (fun j => xs.getD j "") :=
      List.map_congr_left (fun j hj => nodesRemove_getD_lt xs i j hi (hgt j hj))
    rw [List.foldl_cons, List.map_cons]
    have ihh := ih (nodesRemove xs i) hpwt hlt'
    rw [hmap] at ihh
    exact List.perm_middle.trans ((List.Perm.cons _ ihh).trans
      (getD_cons_nodesRemove_perm xs i hi))

lemma foldl_removeNode_nodes :
    ∀ (l : List Nat) (g : MarketGraph),
      (l.foldl removeNode g).nodes = l.foldl nodesRemove g.nodes := by
  intro l
  induction l with
  | nil => intro g; rfl
  | cons i t ih =>
    intro g
    rw [List.foldl_cons, List.foldl_cons, ih]
    rfl

lemma map_getD_range (xs : List String) :
    (List.range xs.length).map (fun i => xs.getD i "") = xs := by
  apply List.ext_getElem
  · simp
  · intro i h1 h2
    rw [List.getElem_map, List.getElem_range]
    exact List.getD_eq_getElem _ _ h2

lemma pruneSingleExit_nodes_perm (g : MarketGraph) :
    (pruneSingleExit g).nodes.Perm (keepNodes g) := by
  have h1 : (pruneSingleExit g).nodes
      = (((List.range g.nodes.length).filter (fun i => outDeg g i == 1)).reverse).foldl
          nodesRemove g.nodes := by
    unfold pruneSingleExit
    rw [foldl_removeNode_nodes]
  have hpw : (((List.range g.nodes.length).filter (fun i => outDeg g i == 1)).reverse).Pairwise
      (· > ·) := by
    rw [List.pairwise_reverse]
    exact List.Pairwise.filter _ (List.pairwise_lt_range g.nodes.length)
  have hlt : ∀ i ∈ ((List.range g.nodes.length).filter (fun i => outDeg g i == 1)).reverse,
      i < g.nodes.length := by
    intro i hif
    rw [List.mem_reverse] at hif
    exact List.mem_range.mp (List.mem_filter.mp hif).1
  have h2 := foldl_nodesRemove_perm _ g.nodes hpw hlt
  have hRR : ((((List.range g.nodes.length).filter (fun i => outDeg g i == 1)).reverse).map
        (fun j => g.nodes.getD j ""))
      = (((List.range g.nodes.length).filter (fun i => outDeg g i == 1)).map
          (fun j => g.nodes.getD j "")).reverse := by
    rw [List.map_reverse]
  have h3 : ((((List.range g.nodes.length).filter (fun i => outDeg g i == 1)).map
        (fun j => g.nodes.getD j "")) ++ keepNodes g).Perm g.nodes := by
    have hf := List.filter_append_perm (fun i => outDeg g i == 1)
      (List.range g.nodes.length)
    have hfm := hf.map (fun j => g.nodes.getD j "")
    rw [List.map_append, map_getD_range] at hfm
    exact hfm
  rw [h1]
  have h2' : ((((List.range g.nodes.length).filter (fun i => outDeg g i == 1)).reverse).foldl
        nodesRemove g.nodes
      ++ (((List.range g.nodes.length).filter (fun i => outDeg g i == 1)).map
          (fun j => g.nodes.getD j ""))).Perm g.nodes := by
    refine List.Perm.trans ?_ h2
    exact List.Perm.append (List.Perm.refl _) (by rw [hRR]; exact (List.reverse_perm _).symm)
  have h4 := h2'.trans h3.symm
  have h5 := h4.trans List.perm_append_comm
  exact (List.perm_append_right_iff _).mp h5

lemma mem_keepNodes (g : MarketGraph) (i : Nat) (hi : i < g.nodes.length)
    (hd : ¬ outDeg g i = 1) : g.nodes.getD i "" ∈ keepNodes g := by
  unfold keepNodes
  exact List.mem_map.mpr ⟨i,
    List.mem_filter.mpr ⟨List.mem_range.mpr hi, by simpa using hd⟩, rfl⟩

/-- C8: the pruning pass removes exactly the nodes whose outgoing-edge count
was 1 in the graph as it stood before any removal — one pass over the
pre-prune degrees, not repeated to a fixed point: a label whose position had
out-degree 1 is absent afterwards, and one whose position had out-degree ≠ 1
is retained, judged by `outDeg g`, never by degrees of the partially pruned
graph. -/
theorem pruneSingleExit_removes_exactly (g : MarketGraph) (hnd : g.nodes.Nodup) :
    (pruneSingleExit g).nodes.Perm (keepNodes g) ∧
      ∀ i, i < g.nodes.length →
        (outDeg g i = 1 → g.nodes.getD i "" ∉ (pruneSingleExit g).nodes) ∧
        (outDeg g i ≠ 1 → g.nodes.getD i "" ∈ (pruneSingleExit g).nodes) := by
  refine ⟨pruneSingleExit_nodes_perm g, ?_⟩
  intro i hi
  constructor
  · intro hdeg hmem
    have hk : g.nodes.getD i "" ∈ keepNodes g :=
      (pruneSingleExit_nodes_perm g).mem_iff.mp hmem
    unfold keepNodes at hk
    rcases List.mem_map.mp hk with ⟨j, hjf, hje⟩
    rcases List.mem_filter.mp hjf with ⟨hjr, hjd⟩
    have hj : j < g.nodes.length := List.mem_range.mp hjr
    have hij : j = i := by
      have hgi := List.getD_eq_getElem g.nodes "" hi
      have hgj := List.getD_eq_getElem g.nodes "" hj
      have : g.nodes[j] = g.nodes[i] := by rw [← hgi, ← hgj, hje]
      exact (List.Nodup.getElem_inj_iff hnd).mp this
    subst hij
    rw [hdeg] at hjd
    simp at hjd
  · intro hdeg
    exact (pruneSingleExit_nodes_perm g).mem_iff.mpr (mem_keepNodes g i hi hdeg)

def pruneExample : MarketGraph :=
  ⟨["A", "B", "C"],
    [(0, 1, zeroEdge), (0, 2, zeroEdge), (1, 0, zeroEdge), (1, 2, zeroEdge), (2, 0, zeroEdge)]⟩

/-- Witness for C8 on a concrete graph: node "C" (out-degree 1) is pruned,
"A" and "B" (out-degree 2) survive. -/
theorem pruneSingleExit_removes_witness :
    pruneExample.nodes.Nodup ∧
      ((pruneSingleExit pruneExample).nodes.Perm (keepNodes pruneExample) ∧
        ∀ i, i < pruneExample.nodes.length →
          (outDeg pruneExample i = 1 →
            pruneExample.nodes.getD i "" ∉ (pruneSingleExit pruneExample).nodes) ∧
          (outDeg pruneExample i ≠ 1 →
            pruneExample.nodes.getD i "" ∈ (pruneSingleExit pruneExample).nodes)) :=
  ⟨by decide, pruneSingleExit_removes_exactly pruneExample (by decide)⟩


/-! ## The emission-length window, and what it does not prune (C1, C4) -/

lemma foldl_pres {β : Type} {α : Type} (Q : β → Prop) (f : β → α → β)
    (hf : ∀ b w, Q b → Q (f b w)) :
    ∀ (l : List α) (b : β), Q b → Q (l.foldl f b) := by
  intro l
  induction l with
  | nil => intro b h; exact h
  | cons w t ih =>
    intro b h
    rw [List.foldl_cons]
    exact ih _ (hf b w h)

/-- Every stack `circuit` hands to the visitor holds 3 to 5 vertices: the
window guards the emission itself. -/
lemma circuitF_emits_len :
    ∀ (fuel : Nat) (adj : Nat → List Nat) (scc : List Nat) (s v : Nat) (st : CFState),
      ∀ c ∈ (circuitF adj scc s fuel v st).emits, 3 ≤ c.length ∧ c.length ≤ 5 := by
  intro fuel
  induction fuel with
  | zero =>
    intro adj scc s v st c hc
    exact absurd hc (by simp [circuitF])
  | succ n ih =>
    intro adj scc s v st c hc
    simp only [circuitF] at hc
    split at hc
    · dsimp only at hc
      revert c hc
      refine foldl_pres
        (fun (acc : CircuitRes) => ∀ c ∈ acc.emits, 3 ≤ c.length ∧ c.length ≤ 5) _
        ?_ (adj v) _ ?_
      · intro acc w hacc c hc
        by_cases hw : w = s
        · rw [if_pos hw] at hc
          split at hc
          · rename_i hlen
            dsimp only at hc
            rcases List.mem_append.mp hc with h1 | h2
            · exact hacc c h1
            · rw [List.mem_singleton.mp h2]; exact hlen
          · exact hacc c hc
        · rw [if_neg hw] at hc
          split at hc
          · dsimp only at hc
            rcases List.mem_append.mp hc with h1 | h2
            · exact hacc c h1
            · exact ih adj scc s w acc.st c h2
          · exact hacc c hc
      · intro c hc
        exact absurd hc (by simp)
    · dsimp only at hc
      revert c hc
      refine foldl_pres
        (fun (acc : CircuitRes) => ∀ c ∈ acc.emits, 3 ≤ c.length ∧ c.length ≤ 5) _
        ?_ (adj v) _ ?_
      · intro acc w hacc c hc
        by_cases hw : w = s
        · rw [if_pos hw] at hc
          split at hc
          · rename_i hlen
            dsimp only at hc
            rcases List.mem_append.mp hc with h1 | h2
            · exact hacc c h1
            · rw [List.mem_singleton.mp h2]; exact hlen
          · exact hacc c hc
        · rw [if_neg hw] at hc
          split at hc
          · dsimp only at hc
            rcases List.mem_append.mp hc with h1 | h2
            · exact hacc c h1
            · exact ih adj scc s w acc.st c h2
          · exact hacc c hc
      · intro c hc
        exact absurd hc (by simp)

lemma visitF_emits_len (adj : Nat → List Nat) (scc : List Nat) (fuel : Nat) :
    ∀ c ∈ (visitF adj scc fuel).emits, 3 ≤ c.length ∧ c.length ≤ 5 := by
  intro c hc
  unfold visitF at hc
  revert c hc
  refine foldl_pres
    (fun (b : CFState × VisitRes) => ∀ c ∈ b.2.emits, 3 ≤ c.length ∧ c.length ≤ 5) _
    ?_ (List.range scc.length) _ ?_
  · intro b s hb c hc
    dsimp only at hc
    rcases List.mem_append.mp hc with h1 | h2
    · exact hb c h1
    · exact circuitF_emits_len fuel adj scc s s _ c h2
  · intro c hc
    exact absurd hc (by simp)

lemma visitCyclesWith_emits_len (nbrs : Nat → List Nat) (comps : List (List Nat)) (fuel : Nat) :
    ∀ c ∈ (visitCyclesWith nbrs comps fuel).emits, 3 ≤ c.length ∧ c.length ≤ 5 := by
  intro c hc
  unfold visitCyclesWith at hc
  revert c hc
  refine foldl_pres
    (fun (b : VisitRes) => ∀ c ∈ b.emits, 3 ≤ c.length ∧ c.length ≤ 5) _
    ?_ comps _ ?_
  · intro b scc hb c hc
    dsimp only at hc
    rcases List.mem_append.mp hc with h1 | h2
    · exact hb c h1
    · exact visitF_emits_len _ scc fuel c h2
  · intro c hc
    exact absurd hc (by simp)

/-- A cycle rotated so that its least vertex comes first: the canonical
form under which emitted cycles are compared with the reference list. -/
def canonRot (c : List Nat) : List Nat :=
  c.rotateLeft (c.indexOf (c.foldl min (c.headD 0)))

/-- The five canonical elementary 3–5-cycles of the witness graph (checked
against `elemCycles35` below). -/
def g6cycles : List (List Nat) :=
  [[0, 3, 5], [1, 4, 2], [2, 3, 5], [0, 1, 4, 2, 3], [0, 3, 5, 2, 1]]

/-- One inner order of the witness component fails the finder: the fuel
sufficed (so the run is the source recursion), the path stack exceeded
five vertices, and at least one elementary 3–5-cycle was never emitted. -/
def g6check (scc : List Nat) : Bool :=
  let r := visitF (adjacentVertices g6nbrs scc) scc 12
  r.ok && decide (5 < r.maxStack) &&
    g6cycles.any (fun t => !((r.emits.map canonRot).contains t))

/-- The 720 inner orders of the witness component, in ten slices. -/
def pchunk (i : Nat) : List (List Nat) :=
  (((List.range 6).permutations').drop (72 * i)).take 72

set_option maxRecDepth 1000000 in
lemma g6chunk0 : (pchunk 0).all g6check = true := by decide

set_option maxRecDepth 1000000 in
lemma g6chunk1 : (pchunk 1).all g6check = true := by decide

set_option maxRecDepth 1000000 in
lemma g6chunk2 : (pchunk 2).all g6check = true := by decide

set_option maxRecDepth 1000000 in
lemma g6chunk3 : (pchunk 3).all g6check = true := by decide

set_option maxRecDepth 1000000 in
lemma g6chunk4 : (pchunk 4).all g6check = true := by decide

set_option maxRecDepth 1000000 in
lemma g6chunk5 : (pchunk 5).all g6check = true := by decide

set_option maxRecDepth 1000000 in
lemma g6chunk6 : (pchunk 6).all g6check = true := by decide

set_option maxRecDepth 1000000 in
lemma g6chunk7 : (pchunk 7).all g6check = true := by decide

set_option maxRecDepth 1000000 in
lemma g6chunk8 : (pchunk 8).all g6check = true := by decide

set_option maxRecDepth 1000000 in
lemma g6chunk9 : (pchunk 9).all g6check = true := by decide

set_option maxRecDepth 1000000 in
lemma g6chunks_cover :
    [pchunk 0, pchunk 1, pchunk 2, pchunk 3, pchunk 4, pchunk 5, pchunk 6,
      pchunk 7, pchunk 8, pchunk 9].flatten = (List.range 6).permutations' := by
  decide

/-- `g6check` holds for every one of the 720 inner orders. -/
lemma g6all : ((List.range 6).permutations').all g6check = true := by
  rw [← g6chunks_cover]
  simp only [List.flatten, List.all_append, List.all_nil, g6chunk0, g6chunk1, g6chunk2,
    g6chunk3, g6chunk4, g6chunk5, g6chunk6, g6chunk7, g6chunk8, g6chunk9,
    Bool.and_self, Bool.and_true, Bool.true_and]

set_option maxRecDepth 1000000 in
lemma g6elemCycles : elemCycles35 g6nbrs 6 = g6cycles := by decide

lemma g6strongly : stronglyConnectedB g6nbrs 6 = true := by decide

lemma g6check_parts (scc : List Nat) (h : g6check scc = true) :
    (visitF (adjacentVertices g6nbrs scc) scc 12).ok = true ∧
      5 < (visitF (adjacentVertices g6nbrs scc) scc 12).maxStack ∧
      ∃ t ∈ g6cycles,
        t ∉ (visitF (adjacentVertices g6nbrs scc) scc 12).emits.map canonRot := by
  simp only [g6check] at h
  rw [Bool.and_eq_true, Bool.and_eq_true] at h
  refine ⟨h.1.1, by simpa using h.1.2, ?_⟩
  rcases List.any_eq_true.mp h.2 with ⟨t, ht, hb⟩
  exact ⟨t, ht, by simpa using hb⟩

/-- C1: the enumerator is not complete.  The witness graph `g6nbrs` is
strongly connected (so `tarjan_scc` returns the whole vertex set as one
component in some inner order) and has exactly five elementary cycles of
3–5 edges, yet for every one of the 720 possible inner orders the finder's
run — with sufficient fuel, so it is the run of the source recursion —
fails to emit at least one of them: cycles blocked during an emission
whose length fell outside the 3–5 window are never unblocked, because the
`f` flag is only set inside the window. -/
theorem cycles_incomplete_on_g6 :
    stronglyConnectedB g6nbrs 6 = true ∧
      elemCycles35 g6nbrs 6 = g6cycles ∧
      ∀ scc ∈ (List.range 6).permutations',
        (visitF (adjacentVertices g6nbrs scc) scc 12).ok = true ∧
          ∃ t ∈ elemCycles35 g6nbrs 6,
            t ∉ (visitF (adjacentVertices g6nbrs scc) scc 12).emits.map canonRot := by
  refine ⟨g6strongly, g6elemCycles, ?_⟩
  intro scc hs
  have h := g6check_parts scc (List.all_eq_true.mp g6all scc hs)
  rw [g6elemCycles]
  exact ⟨h.1, h.2.2⟩

/-- Witness for C1's universal part at the identity inner order. -/
theorem cycles_incomplete_on_g6_witness :
    [0, 1, 2, 3, 4, 5] ∈ (List.range 6).permutations' ∧
      ((visitF (adjacentVertices g6nbrs [0, 1, 2, 3, 4, 5]) [0, 1, 2, 3, 4, 5] 12).ok = true ∧
        ∃ t ∈ elemCycles35 g6nbrs 6,
          t ∉ (visitF (adjacentVertices g6nbrs [0, 1, 2, 3, 4, 5])
                [0, 1, 2, 3, 4, 5] 12).emits.map canonRot) :=
  ⟨by decide, cycles_incomplete_on_g6.2.2 [0, 1, 2, 3, 4, 5] (by decide)⟩

/-- C4 (amended): the 3–5 bound is a filter at emission time, not a prune
of the search: every cycle handed to any visitor holds 3 to 5 vertices
(in particular nothing shorter than 3 edges is emitted), but the search
itself recurses past depth 5 — on the witness graph the path stack reaches
6 vertices under every possible inner order of the component. -/
theorem emission_window_filters_not_prunes :
    (∀ (nbrs : Nat → List Nat) (comps : List (List Nat)) (fuel : Nat),
        ∀ c ∈ (visitCyclesWith nbrs comps fuel).emits, 3 ≤ c.length ∧ c.length ≤ 5) ∧
      ∀ scc ∈ (List.range 6).permutations',
        5 < (visitF (adjacentVertices g6nbrs scc) scc 12).maxStack := by
  refine ⟨fun nbrs comps fuel => visitCyclesWith_emits_len nbrs comps fuel, ?_⟩
  intro scc hs
  exact (g6check_parts scc (List.all_eq_true.mp g6all scc hs)).2.1

/-- Witness for C4's two parts at concrete inputs. -/
theorem emission_window_witness :
    ([0, 1, 4, 2, 3] ∈ (visitCyclesWith g6nbrs [[0, 1, 2, 3, 4, 5]] 12).emits ∧
        3 ≤ ([0, 1, 4, 2, 3] : List Nat).length ∧ ([0, 1, 4, 2, 3] : List Nat).length ≤ 5) ∧
      ([0, 1, 2, 3, 4, 5] ∈ (List.range 6).permutations' ∧
        5 < (visitF (adjacentVertices g6nbrs [0, 1, 2, 3, 4, 5])
              [0, 1, 2, 3, 4, 5] 12).maxStack) :=
  ⟨⟨by decide, emission_window_filters_not_prunes.1 g6nbrs [[0, 1, 2, 3, 4, 5]] 12
      [0, 1, 4, 2, 3] (by decide)⟩,
    ⟨by decide, emission_window_filters_not_prunes.2 [0, 1, 2, 3, 4, 5] (by decide)⟩⟩

/-- Counterexample to C4 as stated: under every one of the 720 inner
orders of the witness component the recursion is fully evaluated
(`ok = true`) and the path stack grows beyond 5 vertices. -/
theorem stack_depth_exceeds_five :
    ((List.range 6).permutations').all
      (fun scc => (visitF (adjacentVertices g6nbrs scc) scc 12).ok &&
        decide (5 < (visitF (adjacentVertices g6nbrs scc) scc 12).maxStack)) = true := by
  rw [List.all_eq_true]
  intro scc hs
  have h := g6check_parts scc (List.all_eq_true.mp g6all scc hs)
  rw [Bool.and_eq_true]
  exact ⟨h.1, by simpa using h.2.1⟩

end Antares
